import Mathlib

/-!
Verification development for the kurtosis data-server pipeline
(MonitorControl/BackEnds/data_server.py): packet decoding, batching into
epochs, round-robin packet routing, one-second averaging, monitor-file
growth, the run loop's end condition, startup channel sniffing and the
shutdown sequence.

Machine integers of the source (uint16 payload words, counters) are
modelled as ℕ; the float32 kurtosis scaling by 4096 is exact in binary
floating point for uint16 inputs, so it is modelled as exact division
in ℚ.  Timestamps are modelled as whole seconds (ℕ) since the epoch,
which is all `time.gmtime` field extraction depends on.
-/

namespace DataServer

/-- Module constant from data_server.py: number of unpacker workers. -/
def num_workers : ℕ := 16

/-- Module constant from data_server.py: number of aggregators. -/
def num_aggregators : ℕ := 4

/-- Module constant from data_server.py: packets per epoch (batch size). -/
def max_count : ℕ := 5000

/-- The 1024x4 row-major matrix view `D` of the 4096 payload words:
`D = numpy.array(data, dtype=numpy.uint16).reshape((1024,4))`, so
`D[r,c]` is word number `4*r + c`. -/
def reshapeD (data : List ℕ) (r c : ℕ) : ℕ := data.getD (4 * r + c) 0

/-- Column slice `D[lo:lo+len, c]` of the reshaped payload. -/
def colSlice (data : List ℕ) (lo len c : ℕ) : List ℕ :=
  (List.range len).map (fun k => reshapeD data (lo + k) c)

/-- `power['I'] = numpy.append(D[:512,0], D[:512,1])` from `unscramble`. -/
def power_I (data : List ℕ) : List ℕ :=
  colSlice data 0 512 0 ++ colSlice data 0 512 1

/-- `power['Q'] = numpy.append(D[512:,0], D[512:,1])` from `unscramble`. -/
def power_Q (data : List ℕ) : List ℕ :=
  colSlice data 512 512 0 ++ colSlice data 512 512 1

/-- `kurt['I'] = numpy.append(D[:512,2], D[:512,3]).astype(float32)/4096.`
from `unscramble`. -/
def kurtosis_I (data : List ℕ) : List ℚ :=
  (colSlice data 0 512 2 ++ colSlice data 0 512 3).map (fun x : ℕ => (x : ℚ) / 4096)

/-- `kurt['Q'] = numpy.append(D[512:,2], D[512:,3]).astype(float32)/4096.`
from `unscramble`. -/
def kurtosis_Q (data : List ℕ) : List ℚ :=
  (colSlice data 512 512 2 ++ colSlice data 512 512 3).map (fun x : ℕ => (x : ℚ) / 4096)

/-- The inner `unscramble` of `unscramble_packet`: the four decoded
sample arrays of one packet payload. -/
def unscramble (data : List ℕ) : List ℕ × List ℕ × List ℚ × List ℚ :=
  (power_I data, power_Q data, kurtosis_I data, kurtosis_Q data)

theorem colSlice_length (data : List ℕ) (lo len c : ℕ) :
    (colSlice data lo len c).length = len := by
  simp [colSlice]

theorem colSlice_getD (data : List ℕ) (lo len c i : ℕ) (h : i < len) :
    (colSlice data lo len c).getD i 0 = reshapeD data (lo + i) c := by
  simp [colSlice, List.getD_eq_getElem?_getD, List.getElem?_map,
        List.getElem?_range h]

theorem getD_map_div4096 (l : List ℕ) (i : ℕ) (h : i < l.length) :
    (l.map (fun x : ℕ => (x : ℚ) / 4096)).getD i 0 = (l.getD i 0 : ℚ) / 4096 := by
  have hx : l[i]? = some l[i] := List.getElem?_eq_getElem h
  rw [List.getD_eq_getElem?_getD, List.getElem?_map, hx,
      List.getD_eq_getElem?_getD, hx]
  rfl

/-- The Decoded Sample Set contract, written from the spec's words:
each decoded array has exactly 1024 elements, `power_I` is the
concatenation of `D[0:512,0]` and `D[0:512,1]`, `power_Q` the
concatenation of `D[512:1024,0]` and `D[512:1024,1]`, and the two
kurtosis arrays are the analogous column-2/3 concatenations divided
by 4096. -/
def decodedSampleSetSpec (data : List ℕ) : Prop :=
  (power_I data).length = 1024 ∧ (power_Q data).length = 1024 ∧
  (kurtosis_I data).length = 1024 ∧ (kurtosis_Q data).length = 1024 ∧
  ∀ i, i < 512 →
    (power_I data).getD i 0 = reshapeD data i 0 ∧
    (power_I data).getD (512 + i) 0 = reshapeD data i 1 ∧
    (power_Q data).getD i 0 = reshapeD data (512 + i) 0 ∧
    (power_Q data).getD (512 + i) 0 = reshapeD data (512 + i) 1 ∧
    (kurtosis_I data).getD i 0 = (reshapeD data i 2 : ℚ) / 4096 ∧
    (kurtosis_I data).getD (512 + i) 0 = (reshapeD data i 3 : ℚ) / 4096 ∧
    (kurtosis_Q data).getD i 0 = (reshapeD data (512 + i) 2 : ℚ) / 4096 ∧
    (kurtosis_Q data).getD (512 + i) 0 = (reshapeD data (512 + i) 3 : ℚ) / 4096

theorem getD_append_two (l₁ l₂ : List ℕ) (i : ℕ)
    (h₁ : l₁.length = 512) (h₂ : l₂.length = 512) (h : i < 512) :
    (l₁ ++ l₂).getD i 0 = l₁.getD i 0 ∧
    (l₁ ++ l₂).getD (512 + i) 0 = l₂.getD i 0 := by
  constructor
  · exact List.getD_append l₁ l₂ 0 i (by omega)
  · rw [List.getD_append_right l₁ l₂ 0 (512 + i) (by omega)]
    simp [h₁]

/-- C1: for every well-formed 4096-word payload, `unscramble` returns four
1024-element arrays given exactly by the spec's concatenation formulas on
the 1024x4 reshape `D`; as a Lean function of the payload alone it is
deterministic and pure by construction. -/
theorem unscramble_decodes_correctly (data : List ℕ)
    (h : data.length = 4096) : decodedSampleSetSpec data := by
  refine ⟨?_, ?_, ?_, ?_, ?_⟩
  · simp [power_I, colSlice_length]
  · simp [power_Q, colSlice_length]
  · rw [kurtosis_I, List.length_map, List.length_append,
        colSlice_length, colSlice_length]
  · rw [kurtosis_Q, List.length_map, List.length_append,
        colSlice_length, colSlice_length]
  · intro i hi
    have c00 := colSlice_getD data 0 512 0 i hi
    have c01 := colSlice_getD data 0 512 1 i hi
    have c02 := colSlice_getD data 0 512 2 i hi
    have c03 := colSlice_getD data 0 512 3 i hi
    have c50 := colSlice_getD data 512 512 0 i hi
    have c51 := colSlice_getD data 512 512 1 i hi
    have c52 := colSlice_getD data 512 512 2 i hi
    have c53 := colSlice_getD data 512 512 3 i hi
    simp only [Nat.zero_add] at c00 c01 c02 c03
    refine ⟨?_, ?_, ?_, ?_, ?_, ?_, ?_, ?_⟩
    · rw [power_I,
          (getD_append_two _ _ i (colSlice_length _ _ _ _)
            (colSlice_length _ _ _ _) hi).1, c00]
    · rw [power_I,
          (getD_append_two _ _ i (colSlice_length _ _ _ _)
            (colSlice_length _ _ _ _) hi).2, c01]
    · rw [power_Q,
          (getD_append_two _ _ i (colSlice_length _ _ _ _)
            (colSlice_length _ _ _ _) hi).1, c50]
    · rw [power_Q,
          (getD_append_two _ _ i (colSlice_length _ _ _ _)
            (colSlice_length _ _ _ _) hi).2, c51]
    · rw [kurtosis_I, getD_map_div4096 _ i (by simp [colSlice_length]; omega),
          (getD_append_two _ _ i (colSlice_length _ _ _ _)
            (colSlice_length _ _ _ _) hi).1, c02]
    · rw [kurtosis_I, getD_map_div4096 _ (512 + i) (by simp [colSlice_length]; omega),
          (getD_append_two _ _ i (colSlice_length _ _ _ _)
            (colSlice_length _ _ _ _) hi).2, c03]
    · rw [kurtosis_Q, getD_map_div4096 _ i (by simp [colSlice_length]; omega),
          (getD_append_two _ _ i (colSlice_length _ _ _ _)
            (colSlice_length _ _ _ _) hi).1, c52]
    · rw [kurtosis_Q, getD_map_div4096 _ (512 + i) (by simp [colSlice_length]; omega),
          (getD_append_two _ _ i (colSlice_length _ _ _ _)
            (colSlice_length _ _ _ _) hi).2, c53]

/-- Witness for C1 at the concrete all-zero 4096-word payload. -/
theorem unscramble_decodes_correctly_witness :
    (List.replicate 4096 0).length = 4096 ∧
    decodedSampleSetSpec (List.replicate 4096 0) :=
  ⟨List.length_replicate 4096 0,
   unscramble_decodes_correctly (List.replicate 4096 0)
     (List.length_replicate 4096 0)⟩

/-- One UDP datagram after `unpack_from(pkt_fmt, pkt_buf)`: 8 header
chars, `pkt_cnt_sec`, `sec_cnt`, `raw_pkt_cnt` and the 4096 payload
words; `arrival` is the wall-clock second at which the worker dequeues
it (`time.time()` is sampled when the first packet of a batch is
processed). -/
structure RawPacket where
  hdr : List ℕ
  pkt_cnt_sec : ℕ
  sec_cnt : ℕ
  raw_pkt_cnt : ℕ
  payload : List ℕ
  arrival : ℕ
deriving Inhabited, DecidableEq

/-- The `one_second` record accumulated by `unscramble_packet`: a
capture timestamp, the per-packet header and counter lists and the four
per-packet decoded sample lists. -/
structure Epoch where
  time : ℕ
  hdr : List (List ℕ)
  pkt_cnt_sec : List ℕ
  sec_cnt : List ℕ
  raw_pkt_cnt : List ℕ
  pwrI : List (List ℕ)
  krtI : List (List ℚ)
  pwrQ : List (List ℕ)
  krtQ : List (List ℚ)
deriving Inhabited, DecidableEq

/-- The fresh `one_second` dict at the top of the worker loop, with the
timestamp taken when the first packet of the batch is dequeued. -/
def emptyEpoch (t : ℕ) : Epoch := ⟨t, [], [], [], [], [], [], [], []⟩

/-- One iteration of the worker's inner loop: unpack a packet and append
its header, counters and decoded samples to the in-progress epoch. -/
def addPacket (e : Epoch) (p : RawPacket) : Epoch :=
  { e with
    hdr := e.hdr ++ [p.hdr],
    pkt_cnt_sec := e.pkt_cnt_sec ++ [p.pkt_cnt_sec],
    sec_cnt := e.sec_cnt ++ [p.sec_cnt],
    raw_pkt_cnt := e.raw_pkt_cnt ++ [p.raw_pkt_cnt],
    pwrI := e.pwrI ++ [power_I p.payload],
    krtI := e.krtI ++ [kurtosis_I p.payload],
    pwrQ := e.pwrQ ++ [power_Q p.payload],
    krtQ := e.krtQ ++ [kurtosis_Q p.payload] }

/-- The epoch built from one full batch of packets; its timestamp is the
arrival time of the first packet of the batch. -/
def epochOf (pkts : List RawPacket) : Epoch :=
  pkts.foldl addPacket (emptyEpoch (pkts.headD default).arrival)

/-- The batching structure of the worker loop: the input queue contents
split into maximal full batches of `b` packets; a trailing incomplete
batch stays buffered inside the worker and is never emitted. -/
def fullChunks (b : ℕ) (l : List RawPacket) : List (List RawPacket) :=
  if h : 0 < b ∧ b ≤ l.length then l.take b :: fullChunks b (l.drop b) else []
termination_by l.length
decreasing_by simp only [List.length_drop]; omega

/-- `unscramble_packet` over a finite prefix of its input queue: one
epoch is put on the output queue per completed batch of `b` packets. -/
def workerEpochs (b : ℕ) (input : List RawPacket) : List Epoch :=
  (fullChunks b input).map epochOf

theorem foldl_addPacket_hdr_length (pkts : List RawPacket) (e : Epoch) :
    (pkts.foldl addPacket e).hdr.length = e.hdr.length + pkts.length := by
  induction pkts generalizing e with
  | nil => simp
  | cons p rest ih => simp [List.foldl_cons, ih, addPacket]; omega

theorem foldl_addPacket_lengths (pkts : List RawPacket) (e : Epoch) :
    let r := pkts.foldl addPacket e
    r.hdr.length = e.hdr.length + pkts.length ∧
    r.pkt_cnt_sec.length = e.pkt_cnt_sec.length + pkts.length ∧
    r.sec_cnt.length = e.sec_cnt.length + pkts.length ∧
    r.raw_pkt_cnt.length = e.raw_pkt_cnt.length + pkts.length ∧
    r.pwrI.length = e.pwrI.length + pkts.length ∧
    r.krtI.length = e.krtI.length + pkts.length ∧
    r.pwrQ.length = e.pwrQ.length + pkts.length ∧
    r.krtQ.length = e.krtQ.length + pkts.length := by
  induction pkts generalizing e with
  | nil => simp
  | cons p rest ih =>
      simpa [List.foldl_cons, addPacket, Nat.add_assoc, Nat.add_comm,
             Nat.add_left_comm] using ih (addPacket e p)

theorem fullChunks_mem_length (b : ℕ) (l : List RawPacket)
    (c : List RawPacket) (hc : c ∈ fullChunks b l) : c.length = b := by
  have H : ∀ n (l : List RawPacket), l.length = n →
      ∀ c ∈ fullChunks b l, c.length = b := by
    intro n
    induction n using Nat.strong_induction_on with
    | _ n ih =>
      intro l hn c hc
      rw [fullChunks] at hc
      split at hc
      next hcond =>
        rcases List.mem_cons.mp hc with h1 | h2
        · subst h1; simp; omega
        · exact ih ((l.drop b).length) (by subst hn; simp; omega) _ rfl c h2
      next => simp at hc
  exact H l.length l rfl c hc

theorem fullChunks_count (b : ℕ) (hb : 0 < b) (l : List RawPacket) :
    (fullChunks b l).length = l.length / b := by
  have H : ∀ n (l : List RawPacket), l.length = n →
      (fullChunks b l).length = l.length / b := by
    intro n
    induction n using Nat.strong_induction_on with
    | _ n ih =>
      intro l hn
      rw [fullChunks]
      split
      next hcond =>
        have hdrop : (l.drop b).length = l.length - b := by simp
        rw [List.length_cons,
            ih ((l.drop b).length) (by subst hn; simp; omega) _ rfl, hdrop,
            Nat.div_eq_sub_div hb hcond.2]
      next hcond =>
        have : l.length < b := by omega
        simp [Nat.div_eq_of_lt this]
  exact H l.length l rfl

theorem epochOf_lengths (c : List RawPacket) :
    (epochOf c).hdr.length = c.length ∧
    (epochOf c).pkt_cnt_sec.length = c.length ∧
    (epochOf c).sec_cnt.length = c.length ∧
    (epochOf c).raw_pkt_cnt.length = c.length ∧
    (epochOf c).pwrI.length = c.length ∧
    (epochOf c).krtI.length = c.length ∧
    (epochOf c).pwrQ.length = c.length ∧
    (epochOf c).krtQ.length = c.length := by
  have h := foldl_addPacket_lengths c (emptyEpoch (c.headD default).arrival)
  simpa [epochOf, emptyEpoch] using h

/-- C2: every epoch emitted by the worker carries exactly `b` entries in
its header list, its three counter lists and its four sample lists, and
the worker emits exactly one epoch per `b` dequeued packets — `input.length / b`
epochs from a finite input prefix, never one for a partial batch. -/
theorem worker_emits_full_epochs (b : ℕ) (input : List RawPacket)
    (hb : 0 < b) :
    (∀ e ∈ workerEpochs b input,
      e.hdr.length = b ∧ e.pkt_cnt_sec.length = b ∧ e.sec_cnt.length = b ∧
      e.raw_pkt_cnt.length = b ∧ e.pwrI.length = b ∧ e.krtI.length = b ∧
      e.pwrQ.length = b ∧ e.krtQ.length = b) ∧
    (workerEpochs b input).length = input.length / b := by
  constructor
  · intro e he
    rcases List.mem_map.mp he with ⟨c, hc, hce⟩
    have hclen : c.length = b := fullChunks_mem_length b input c hc
    have hl := epochOf_lengths c
    rw [hclen] at hl
    rw [← hce]
    exact hl
  · rw [workerEpochs, List.length_map]
    exact fullChunks_count b hb input

/-- Witness for C2: batch size 2 on a concrete three-packet input emits
exactly one full epoch. -/
theorem worker_emits_full_epochs_witness :
    0 < 2 ∧
    ((∀ e ∈ workerEpochs 2 [default, default, default],
      e.hdr.length = 2 ∧ e.pkt_cnt_sec.length = 2 ∧ e.sec_cnt.length = 2 ∧
      e.raw_pkt_cnt.length = 2 ∧ e.pwrI.length = 2 ∧ e.krtI.length = 2 ∧
      e.pwrQ.length = 2 ∧ e.krtQ.length = 2) ∧
    (workerEpochs 2 [default, default, default]).length =
      ([default, default, default] : List RawPacket).length / 2) :=
  ⟨by decide,
   worker_emits_full_epochs 2 [default, default, default] (by decide)⟩

/-- Worker indices of the puts done by one pass of `get_packet`'s outer
`for unpacker in range(num_workers)` loop: for each worker in order,
`b` consecutive datagrams go to that worker's queue. -/
def oneRound (N b : ℕ) : List ℕ :=
  (List.range N).flatMap (fun w => List.replicate b w)

/-- Worker indices of the puts done by `rounds` iterations of
`get_packet`'s `while True` loop. -/
def readerSchedule (rounds N b : ℕ) : List ℕ :=
  (List.range rounds).flatMap (fun _ => oneRound N b)

/-- The put sequence of `get_packet` on a finite datagram prefix `ds`:
the i-th entry pairs the target worker's index with the datagram pushed
(unmodified) onto that worker's queue. -/
def readerPuts (rounds N b : ℕ) (ds : List (List ℕ)) : List (ℕ × List ℕ) :=
  (readerSchedule rounds N b).zip ds

theorem oneRound_length (N b : ℕ) : (oneRound N b).length = N * b := by
  induction N with
  | zero => simp [oneRound]
  | succ n ih =>
      simp only [oneRound, List.range_succ, List.flatMap_append] at ih ⊢
      simp [ih, Nat.succ_mul]

theorem oneRound_succ (N b : ℕ) :
    oneRound (N + 1) b = oneRound N b ++ List.replicate b N := by
  simp [oneRound, List.range_succ]

theorem oneRound_getD (N b i : ℕ) (hb : 0 < b) (hi : i < N * b) :
    (oneRound N b).getD i 0 = i / b := by
  induction N with
  | zero => omega
  | succ n ih =>
      rw [oneRound_succ]
      by_cases hcase : i < n * b
      · rw [List.getD_append _ _ 0 i (by rw [oneRound_length]; omega)]
        exact ih hcase
      · rw [List.getD_append_right _ _ 0 i (by rw [oneRound_length]; omega),
            oneRound_length]
        have hkey : i - n * b < b := by
          have hsm : (n + 1) * b = n * b + b := by ring
          omega
        have hrep : (List.replicate b n).getD (i - n * b) 0 = n := by
          rw [List.getD_eq_getElem?_getD, List.getElem?_replicate]
          simp [hkey]
        rw [hrep]
        have hlo : n * b ≤ i := by omega
        have hhi : i < (n + 1) * b := by omega
        exact (Nat.div_eq_of_lt_le hlo hhi).symm

theorem readerSchedule_succ (r N b : ℕ) :
    readerSchedule (r + 1) N b = readerSchedule r N b ++ oneRound N b := by
  simp [readerSchedule, List.range_succ]

theorem readerSchedule_length (rounds N b : ℕ) :
    (readerSchedule rounds N b).length = rounds * (N * b) := by
  induction rounds with
  | zero => simp [readerSchedule]
  | succ r ih =>
      rw [readerSchedule_succ, List.length_append, ih, oneRound_length,
          Nat.succ_mul]

theorem readerSchedule_getD (rounds N b i : ℕ) (hb : 0 < b)
    (hi : i < rounds * (N * b)) :
    (readerSchedule rounds N b).getD i 0 = i / b % N := by
  induction rounds with
  | zero => omega
  | succ r ih =>
      rw [readerSchedule_succ]
      by_cases hcase : i < r * (N * b)
      · rw [List.getD_append _ _ 0 i (by rw [readerSchedule_length]; omega)]
        exact ih hcase
      · rw [List.getD_append_right _ _ 0 i
              (by rw [readerSchedule_length]; omega),
            readerSchedule_length]
        have hsm : (r + 1) * (N * b) = r * (N * b) + N * b := by ring
        have hj : i - r * (N * b) < N * b := by omega
        rw [oneRound_getD N b _ hb hj]
        have hisplit : i = (i - r * (N * b)) + r * N * b := by
          have hassoc : r * (N * b) = r * N * b := by ring
          omega
        conv_rhs => rw [hisplit]
        rw [Nat.add_mul_div_right _ _ hb, Nat.add_mul_mod_self_right,
            Nat.mod_eq_of_lt ((Nat.div_lt_iff_lt_mul hb).mpr hj)]

theorem getD_zip (l₁ : List ℕ) (l₂ : List (List ℕ)) (i : ℕ)
    (h₁ : i < l₁.length) (h₂ : i < l₂.length) :
    (l₁.zip l₂).getD i (0, []) = (l₁.getD i 0, l₂.getD i []) := by
  induction l₁ generalizing l₂ i with
  | nil => simp at h₁
  | cons a l ih =>
      cases l₂ with
      | nil => simp at h₂
      | cons c l' =>
          cases i with
          | zero => simp [List.zip]
          | succ k =>
              have := ih l' k (by simpa using h₁) (by simpa using h₂)
              simpa [List.zip] using this

/-- C3: the reader pushes datagram number `i` (counting from 0)
unmodified onto the queue of worker `(i / b) % N`: each worker gets a
block of `b` consecutive datagrams before the reader moves on to the
next worker in cyclic order, so batches of two workers never
interleave. -/
theorem get_packet_round_robin (rounds N b i : ℕ) (ds : List (List ℕ))
    (hb : 0 < b) (hi : i < rounds * (N * b)) (hlen : i < ds.length) :
    (readerPuts rounds N b ds).getD i (0, []) = (i / b % N, ds.getD i []) := by
  rw [readerPuts,
      getD_zip _ _ i (by rw [readerSchedule_length]; omega) hlen,
      readerSchedule_getD rounds N b i hb hi]

/-- Witness for C3: with 2 workers, batch size 2 and one reader round,
datagram 2 goes to worker `(2 / 2) % 2 = 1`. -/
theorem get_packet_round_robin_witness :
    (0 < 2 ∧ 2 < 1 * (2 * 2) ∧ 2 < ([[5], [6], [7], [8]] : List (List ℕ)).length) ∧
    (readerPuts 1 2 2 [[5], [6], [7], [8]]).getD 2 (0, []) =
      (2 / 2 % 2, ([[5], [6], [7], [8]] : List (List ℕ)).getD 2 []) :=
  ⟨⟨by decide, by decide, by decide⟩,
   get_packet_round_robin 1 2 2 2 [[5], [6], [7], [8]]
     (by decide) (by decide) (by decide)⟩

/-- Elementwise vector addition, the accumulation step behind
`numpy.array(list_of_rows).sum` along axis 0. -/
def vecAdd (a b : List ℚ) : List ℚ := List.zipWith (· + ·) a b

/-- Axis-0 sum of a batch of `w`-wide rows. -/
def rowSum (w : ℕ) (rows : List (List ℚ)) : List ℚ :=
  rows.foldl vecAdd (List.replicate w 0)

/-- `numpy.array(rows).mean(axis=0)`: axis-0 sum scaled by the number of
rows. -/
def rowMean (w : ℕ) (rows : List (List ℚ)) : List ℚ :=
  (rowSum w rows).map (fun x : ℚ => x / (rows.length : ℚ))

/-- The integer power rows viewed as exact rationals, as numpy promotes
uint16 data to float for `mean`. -/
def natRowsToQ (rows : List (List ℕ)) : List (List ℚ) :=
  rows.map (fun r => r.map (fun x : ℕ => (x : ℚ)))

/-- One row written by `average_one_second` into a channel's monitor
datasets: the epoch timestamp, the first packet's raw counter, and the
axis-0 means of the power and kurtosis arrays. -/
structure MonitorRow where
  time : ℕ
  pkt_cnt : ℕ
  power : List ℚ
  kurtosis : List ℚ
deriving Inhabited, DecidableEq

/-- The monitor row `average_one_second` computes for channel I from one
epoch. -/
def monitorRowOfI (e : Epoch) : MonitorRow :=
  ⟨e.time, e.raw_pkt_cnt.getD 0 0,
   rowMean 1024 (natRowsToQ e.pwrI), rowMean 1024 e.krtI⟩

/-- The monitor row `average_one_second` computes for channel Q from one
epoch. -/
def monitorRowOfQ (e : Epoch) : MonitorRow :=
  ⟨e.time, e.raw_pkt_cnt.getD 0 0,
   rowMean 1024 (natRowsToQ e.pwrQ), rowMean 1024 e.krtQ⟩

theorem getD_zipWith_add (a b : List ℚ) (j : ℕ)
    (h₁ : j < a.length) (h₂ : j < b.length) :
    (List.zipWith (· + ·) a b).getD j 0 = a.getD j 0 + b.getD j 0 := by
  induction a generalizing b j with
  | nil => simp at h₁
  | cons x l ih =>
      cases b with
      | nil => simp at h₂
      | cons y m =>
          cases j with
          | zero => simp
          | succ k =>
              have := ih m k (by simpa using h₁) (by simpa using h₂)
              simpa using this

theorem foldl_vecAdd_length (rows : List (List ℚ)) (acc : List ℚ) (w : ℕ)
    (hacc : acc.length = w) (hrows : ∀ r ∈ rows, r.length = w) :
    (rows.foldl vecAdd acc).length = w := by
  induction rows generalizing acc with
  | nil => simpa using hacc
  | cons r rest ih =>
      have hr : r.length = w := hrows r (by simp)
      have hstep : (vecAdd acc r).length = w := by
        simp [vecAdd, hacc, hr]
      exact ih (vecAdd acc r) hstep (fun r' hr' => hrows r' (by simp [hr']))

theorem foldl_vecAdd_getD (rows : List (List ℚ)) (acc : List ℚ) (w j : ℕ)
    (hacc : acc.length = w) (hrows : ∀ r ∈ rows, r.length = w)
    (hj : j < w) :
    (rows.foldl vecAdd acc).getD j 0 =
      acc.getD j 0 + (rows.map (fun r => r.getD j 0)).sum := by
  induction rows generalizing acc with
  | nil => simp
  | cons r rest ih =>
      have hr : r.length = w := hrows r (by simp)
      have hstep : (vecAdd acc r).length = w := by
        simp [vecAdd, hacc, hr]
      have hrec := ih (vecAdd acc r) hstep
        (fun r' hr' => hrows r' (by simp [hr']))
      rw [List.foldl_cons, hrec,
          show (vecAdd acc r).getD j 0 = acc.getD j 0 + r.getD j 0 from
            getD_zipWith_add acc r j (by omega) (by omega)]
      simp [Nat.add_comm]
      ring

theorem rowSum_getD (w : ℕ) (rows : List (List ℚ)) (j : ℕ)
    (hrows : ∀ r ∈ rows, r.length = w) (hj : j < w) :
    (rowSum w rows).getD j 0 = (rows.map (fun r => r.getD j 0)).sum := by
  rw [rowSum,
      foldl_vecAdd_getD rows (List.replicate w 0) w j (by simp) hrows hj]
  simp

theorem getD_map_divQ (l : List ℚ) (c : ℚ) (j : ℕ) (h : j < l.length) :
    (l.map (fun x : ℚ => x / c)).getD j 0 = l.getD j 0 / c := by
  have hx : l[j]? = some l[j] := List.getElem?_eq_getElem h
  rw [List.getD_eq_getElem?_getD, List.getElem?_map, hx,
      List.getD_eq_getElem?_getD, hx]
  rfl

theorem getD_map_cast (r : List ℕ) (j : ℕ) (h : j < r.length) :
    (r.map (fun x : ℕ => (x : ℚ))).getD j 0 = (r.getD j 0 : ℚ) := by
  have hx : r[j]? = some r[j] := List.getElem?_eq_getElem h
  rw [List.getD_eq_getElem?_getD, List.getElem?_map, hx,
      List.getD_eq_getElem?_getD, hx]
  rfl

theorem rowMean_getD (w : ℕ) (rows : List (List ℚ)) (j : ℕ)
    (hrows : ∀ r ∈ rows, r.length = w) (hj : j < w) :
    (rowMean w rows).getD j 0 =
      (rows.map (fun r => r.getD j 0)).sum / (rows.length : ℚ) := by
  have hlen : (rowSum w rows).length = w :=
    foldl_vecAdd_length rows (List.replicate w 0) w (by simp) hrows
  rw [rowMean, getD_map_divQ _ _ j (by omega), rowSum_getD w rows j hrows hj]

theorem rowMean_natRows_getD (w : ℕ) (rows : List (List ℕ)) (j : ℕ)
    (hrows : ∀ r ∈ rows, r.length = w) (hj : j < w) :
    (rowMean w (natRowsToQ rows)).getD j 0 =
      (rows.map (fun r => (r.getD j 0 : ℚ))).sum / (rows.length : ℚ) := by
  have hq : ∀ r ∈ natRowsToQ rows, r.length = w := by
    intro r hr
    rcases List.mem_map.mp hr with ⟨r0, hr0, hr0e⟩
    rw [← hr0e, List.length_map]
    exact hrows r0 hr0
  rw [rowMean_getD w (natRowsToQ rows) j hq hj]
  have hmm : (natRowsToQ rows).map (fun r => r.getD j 0) =
      rows.map (fun r => (r.getD j 0 : ℚ)) := by
    rw [natRowsToQ, List.map_map]
    refine List.map_congr_left ?_
    intro r hr
    exact getD_map_cast r j (by rw [hrows r hr]; omega)
  rw [hmm, natRowsToQ, List.length_map]

/-- C4: for every epoch whose sample rows are 1024 wide, the monitor row
written for each channel carries exactly the axis-0 arithmetic mean of
the epoch's power and kurtosis arrays, the raw packet counter of the
epoch's first packet and the epoch's capture timestamp. -/
theorem average_one_second_exact_mean (e : Epoch)
    (hpI : ∀ r ∈ e.pwrI, r.length = 1024)
    (hkI : ∀ r ∈ e.krtI, r.length = 1024)
    (hpQ : ∀ r ∈ e.pwrQ, r.length = 1024)
    (hkQ : ∀ r ∈ e.krtQ, r.length = 1024) :
    (monitorRowOfI e).time = e.time ∧
    (monitorRowOfI e).pkt_cnt = e.raw_pkt_cnt.getD 0 0 ∧
    (monitorRowOfQ e).time = e.time ∧
    (monitorRowOfQ e).pkt_cnt = e.raw_pkt_cnt.getD 0 0 ∧
    ∀ j, j < 1024 →
      (monitorRowOfI e).power.getD j 0 =
        (e.pwrI.map (fun r => (r.getD j 0 : ℚ))).sum / (e.pwrI.length : ℚ) ∧
      (monitorRowOfI e).kurtosis.getD j 0 =
        (e.krtI.map (fun r => r.getD j 0)).sum / (e.krtI.length : ℚ) ∧
      (monitorRowOfQ e).power.getD j 0 =
        (e.pwrQ.map (fun r => (r.getD j 0 : ℚ))).sum / (e.pwrQ.length : ℚ) ∧
      (monitorRowOfQ e).kurtosis.getD j 0 =
        (e.krtQ.map (fun r => r.getD j 0)).sum / (e.krtQ.length : ℚ) := by
  refine ⟨rfl, rfl, rfl, rfl, ?_⟩
  intro j hj
  exact ⟨rowMean_natRows_getD 1024 e.pwrI j hpI hj,
         rowMean_getD 1024 e.krtI j hkI hj,
         rowMean_natRows_getD 1024 e.pwrQ j hpQ hj,
         rowMean_getD 1024 e.krtQ j hkQ hj⟩

/-- A concrete one-packet epoch with 1024-wide rows, for witnesses. -/
def sampleEpoch : Epoch :=
  ⟨15, [[88]], [0], [0], [7],
   [List.replicate 1024 3], [List.replicate 1024 (1 / 2)],
   [List.replicate 1024 5], [List.replicate 1024 (3 / 4)]⟩

/-- Witness for C4 at a concrete single-row epoch. -/
theorem average_one_second_exact_mean_witness :
    (∀ r ∈ sampleEpoch.pwrI, r.length = 1024) ∧
    ((monitorRowOfI sampleEpoch).time = sampleEpoch.time ∧
     (monitorRowOfI sampleEpoch).pkt_cnt = sampleEpoch.raw_pkt_cnt.getD 0 0 ∧
     (monitorRowOfQ sampleEpoch).time = sampleEpoch.time ∧
     (monitorRowOfQ sampleEpoch).pkt_cnt = sampleEpoch.raw_pkt_cnt.getD 0 0 ∧
     ∀ j, j < 1024 →
      (monitorRowOfI sampleEpoch).power.getD j 0 =
        (sampleEpoch.pwrI.map (fun r => (r.getD j 0 : ℚ))).sum /
          (sampleEpoch.pwrI.length : ℚ) ∧
      (monitorRowOfI sampleEpoch).kurtosis.getD j 0 =
        (sampleEpoch.krtI.map (fun r => r.getD j 0)).sum /
          (sampleEpoch.krtI.length : ℚ) ∧
      (monitorRowOfQ sampleEpoch).power.getD j 0 =
        (sampleEpoch.pwrQ.map (fun r => (r.getD j 0 : ℚ))).sum /
          (sampleEpoch.pwrQ.length : ℚ) ∧
      (monitorRowOfQ sampleEpoch).kurtosis.getD j 0 =
        (sampleEpoch.krtQ.map (fun r => r.getD j 0)).sum /
          (sampleEpoch.krtQ.length : ℚ)) :=
  ⟨by
    intro r hr
    rw [show sampleEpoch.pwrI = [List.replicate 1024 3] from rfl,
        List.mem_singleton] at hr
    subst hr
    exact List.length_replicate _ _,
   average_one_second_exact_mean sampleEpoch
     (by
       intro r hr
       rw [show sampleEpoch.pwrI = [List.replicate 1024 3] from rfl,
           List.mem_singleton] at hr
       subst hr
       exact List.length_replicate _ _)
     (by
       intro r hr
       rw [show sampleEpoch.krtI = [List.replicate 1024 (1 / 2)] from rfl,
           List.mem_singleton] at hr
       subst hr
       exact List.length_replicate _ _)
     (by
       intro r hr
       rw [show sampleEpoch.pwrQ = [List.replicate 1024 5] from rfl,
           List.mem_singleton] at hr
       subst hr
       exact List.length_replicate _ _)
     (by
       intro r hr
       rw [show sampleEpoch.krtQ = [List.replicate 1024 (3 / 4)] from rfl,
           List.mem_singleton] at hr
       subst hr
       exact List.length_replicate _ _)⟩

/-- h5py `dataset.resize(n, axis=0)`: keep the first `n` stored entries
and pad with the dataset fill value up to length `n`. -/
def dsResize {α : Type} (fill : α) (ds : List α) (n : ℕ) : List α :=
  ds.take n ++ List.replicate (n - ds.length) fill

/-- One channel's four monitor datasets (`time`, `pkt cnt`, `power`,
`kurtosis`). -/
structure MonFile where
  aqtime : List ℕ
  pkt_cnt : List ℕ
  power : List (List ℚ)
  kurtosis : List (List ℚ)
deriving Inhabited, DecidableEq

/-- The datasets as `open_monitor_files` creates them: each of initial
length 1, holding the h5py fill value. -/
def initMonFile : MonFile :=
  ⟨[0], [0], [List.replicate 1024 0], [List.replicate 1024 0]⟩

/-- One pass of the Averager body for one channel: when the counter is
nonzero each dataset is resized to `counter + 1` first, then row
`counter` is written. -/
def writeRow (f : MonFile) (counter : ℕ) (row : MonitorRow) : MonFile :=
  ⟨(if counter ≠ 0 then dsResize 0 f.aqtime (counter + 1)
      else f.aqtime).set counter row.time,
   (if counter ≠ 0 then dsResize 0 f.pkt_cnt (counter + 1)
      else f.pkt_cnt).set counter row.pkt_cnt,
   (if counter ≠ 0 then dsResize (List.replicate 1024 0) f.power (counter + 1)
      else f.power).set counter row.power,
   (if counter ≠ 0 then dsResize (List.replicate 1024 0) f.kurtosis (counter + 1)
      else f.kurtosis).set counter row.kurtosis⟩

/-- `average_one_second` on a finite epoch sequence: starting from the
freshly created files and counter 0, process each epoch in order. -/
def averagerRun (es : List Epoch) : ℕ × MonFile × MonFile :=
  es.foldl
    (fun st e =>
      (st.1 + 1, writeRow st.2.1 st.1 (monitorRowOfI e),
       writeRow st.2.2 st.1 (monitorRowOfQ e)))
    (0, initMonFile, initMonFile)

/-- A channel file holds exactly the given rows: every dataset has
length `max 1 rows.length` (length 1 when still empty) and row `k`
stores the k-th written monitor row. -/
def fileMatches (rows : List MonitorRow) (f : MonFile) : Prop :=
  f.aqtime.length = max 1 rows.length ∧
  f.pkt_cnt.length = max 1 rows.length ∧
  f.power.length = max 1 rows.length ∧
  f.kurtosis.length = max 1 rows.length ∧
  ∀ k, k < rows.length →
    f.aqtime.getD k 0 = (rows.getD k default).time ∧
    f.pkt_cnt.getD k 0 = (rows.getD k default).pkt_cnt ∧
    f.power.getD k [] = (rows.getD k default).power ∧
    f.kurtosis.getD k [] = (rows.getD k default).kurtosis

theorem dsResize_length {α : Type} (fill : α) (ds : List α) (n : ℕ) :
    (dsResize fill ds n).length = n := by
  simp [dsResize]
  omega

theorem dsWrite_spec {α : Type} (fill d x : α) (ds : List α) (n : ℕ)
    (hlen : ds.length = max 1 n) :
    ((if n ≠ 0 then dsResize fill ds (n + 1) else ds).set n x).length = n + 1 ∧
    (∀ k, k < n →
      ((if n ≠ 0 then dsResize fill ds (n + 1) else ds).set n x).getD k d =
        ds.getD k d) ∧
    ((if n ≠ 0 then dsResize fill ds (n + 1) else ds).set n x).getD n d = x := by
  by_cases hn : n = 0
  · subst hn
    rw [if_neg (by simp)]
    have h1 : ds.length = 1 := by omega
    refine ⟨by simp [h1], fun k hk => by omega, ?_⟩
    rw [List.getD_eq_getElem?_getD, List.getElem?_set_eq_of_lt x (by omega)]
    rfl
  · rw [if_pos hn]
    have hr : (dsResize fill ds (n + 1)).length = n + 1 :=
      dsResize_length fill ds (n + 1)
    have hds : ds.length = n := by omega
    refine ⟨by simp [hr], ?_, ?_⟩
    · intro k hk
      rw [List.getD_eq_getElem?_getD,
          List.getElem?_set_ne (by omega : n ≠ k),
          dsResize,
          List.getElem?_append_left
            (by rw [List.length_take]; omega : k < (ds.take (n + 1)).length),
          List.getElem?_take_of_lt (by omega : k < n + 1),
          List.getD_eq_getElem?_getD]
    · rw [List.getD_eq_getElem?_getD, List.getElem?_set_eq_of_lt x (by omega)]
      rfl

theorem writeRow_preserves (rows : List MonitorRow) (f : MonFile)
    (row : MonitorRow) (h : fileMatches rows f) :
    fileMatches (rows ++ [row]) (writeRow f rows.length row) := by
  obtain ⟨h1, h2, h3, h4, hrows⟩ := h
  have s1 := dsWrite_spec 0 0 row.time f.aqtime rows.length h1
  have s2 := dsWrite_spec 0 0 row.pkt_cnt f.pkt_cnt rows.length h2
  have s3 := dsWrite_spec (List.replicate 1024 0) [] row.power f.power
    rows.length h3
  have s4 := dsWrite_spec (List.replicate 1024 0) [] row.kurtosis f.kurtosis
    rows.length h4
  refine ⟨?_, ?_, ?_, ?_, ?_⟩
  · rw [writeRow]
    simp only [List.length_append, List.length_cons, List.length_nil]
    rw [s1.1]
    omega
  · rw [writeRow]
    simp only [List.length_append, List.length_cons, List.length_nil]
    rw [s2.1]
    omega
  · rw [writeRow]
    simp only [List.length_append, List.length_cons, List.length_nil]
    rw [s3.1]
    omega
  · rw [writeRow]
    simp only [List.length_append, List.length_cons, List.length_nil]
    rw [s4.1]
    omega
  · intro k hk
    simp only [List.length_append, List.length_cons, List.length_nil] at hk
    by_cases hcase : k < rows.length
    · have hget : (rows ++ [row]).getD k default = rows.getD k default :=
        List.getD_append rows [row] default k hcase
      rw [writeRow, hget]
      exact ⟨by rw [s1.2.1 k hcase]; exact (hrows k hcase).1,
             by rw [s2.2.1 k hcase]; exact (hrows k hcase).2.1,
             by rw [s3.2.1 k hcase]; exact (hrows k hcase).2.2.1,
             by rw [s4.2.1 k hcase]; exact (hrows k hcase).2.2.2⟩
    · have hkn : k = rows.length := by omega
      subst hkn
      have hget : (rows ++ [row]).getD rows.length default = row := by
        rw [List.getD_append_right rows [row] default rows.length (by omega)]
        simp
      rw [writeRow, hget]
      exact ⟨s1.2.2, s2.2.2, s3.2.2, s4.2.2⟩

/-- C5: the four monitor datasets per channel start at length 1 and,
after the Averager has written rows 0..k-1, have length exactly
`max 1 k` (so writing row k leaves length k+1); row `j` permanently
stores the j-th epoch's monitor row — nothing is overwritten or
skipped. -/
theorem monitor_datasets_growth (es : List Epoch) :
    (averagerRun es).1 = es.length ∧
    fileMatches (es.map monitorRowOfI) (averagerRun es).2.1 ∧
    fileMatches (es.map monitorRowOfQ) (averagerRun es).2.2 := by
  induction es using List.reverseRecOn with
  | nil =>
      refine ⟨rfl, ?_, ?_⟩ <;>
        exact ⟨by decide, by decide, by decide, by decide,
               fun k hk => by simp at hk⟩
  | append_singleton l e ih =>
      obtain ⟨ih1, ih2, ih3⟩ := ih
      have hstep : averagerRun (l ++ [e]) =
          ((averagerRun l).1 + 1,
           writeRow (averagerRun l).2.1 (averagerRun l).1 (monitorRowOfI e),
           writeRow (averagerRun l).2.2 (averagerRun l).1 (monitorRowOfQ e)) := by
        rw [averagerRun, List.foldl_append]
        rfl
      have hlenI : (l.map monitorRowOfI).length = l.length := by simp
      have hlenQ : (l.map monitorRowOfQ).length = l.length := by simp
      refine ⟨by rw [hstep]; simp [ih1], ?_, ?_⟩
      · have := writeRow_preserves (l.map monitorRowOfI) (averagerRun l).2.1
          (monitorRowOfI e) ih2
        rw [hlenI, ← ih1] at this
        rw [hstep]
        simpa using this
      · have := writeRow_preserves (l.map monitorRowOfQ) (averagerRun l).2.2
          (monitorRowOfQ e) ih3
        rw [hlenQ, ← ih1] at this
        rw [hstep]
        simpa using this

/-- `time.gmtime(t).tm_hour` of a whole-second Unix timestamp. -/
def tm_hour (t : ℕ) : ℕ := t / 3600 % 24

/-- `time.gmtime(t).tm_min`. -/
def tm_min (t : ℕ) : ℕ := t / 60 % 60

/-- `time.gmtime(t).tm_sec` (Unix time counts no leap seconds). -/
def tm_sec (t : ℕ) : ℕ := t % 60

/-- The stop test in `KurtosisDataServer.run`: the dequeued epoch's UTC
hour, minute and second all equal the configured target. -/
def endCond (endhr endmin endsec t : ℕ) : Bool :=
  tm_hour t == endhr && tm_min t == endmin && tm_sec t == endsec

/-- The `(endhr, endmin, endsec)` target from `__init__`: an explicit
`(hr, mn)` end time gives `(hr, mn, 0)`; with no end time the target is
`(now.tm_hour + 1, 0, 0)`. -/
def endTarget (endtime : Option (ℕ × ℕ)) (now : ℕ) : ℕ × ℕ × ℕ :=
  match endtime with
  | some (hr, mn) => (hr, mn, 0)
  | none => (tm_hour now + 1, 0, 0)

/-- Outcome of the main loop on a finite queue prefix: the epochs
forwarded to the monitor queue, the raw groups written (group number
paired with the epoch), the final group counter and whether the stop
target was reached. -/
structure RunResult where
  monitored : List Epoch
  rawGroups : List (ℕ × Epoch)
  grpnum : ℕ
  stopped : Bool
deriving Inhabited, DecidableEq

/-- The main loop of `KurtosisDataServer.run` on a finite prefix of the
ordered queue: each dequeued epoch is checked against the stop target
first; on a match the loop breaks at once; otherwise the epoch is put
on the monitor queue, persisted as raw group `grpnum`, and `grpnum` is
incremented. -/
def runLoop (endhr endmin endsec : ℕ) : List Epoch → ℕ → RunResult
  | [], g => ⟨[], [], g, false⟩
  | e :: rest, g =>
    if endCond endhr endmin endsec e.time then ⟨[], [], g, true⟩
    else
      let r := runLoop endhr endmin endsec rest (g + 1)
      ⟨e :: r.monitored, (g, e) :: r.rawGroups, r.grpnum, r.stopped⟩

theorem endCond_iff (endhr endmin endsec t : ℕ) :
    endCond endhr endmin endsec t = true ↔
      tm_hour t = endhr ∧ tm_min t = endmin ∧ tm_sec t = endsec := by
  simp [endCond, Bool.and_eq_true, beq_iff_eq, and_assoc]

theorem runLoop_stopped (endhr endmin endsec : ℕ) (epochs : List Epoch)
    (g : ℕ) :
    (runLoop endhr endmin endsec epochs g).stopped =
      epochs.any (fun e => endCond endhr endmin endsec e.time) := by
  induction epochs generalizing g with
  | nil => rfl
  | cons e rest ih =>
      simp only [runLoop]
      by_cases h : endCond endhr endmin endsec e.time
      · simp [h]
      · simp only [Bool.not_eq_true] at h
        simp [h, ih (g + 1)]

/-- C6: the main loop stops precisely when some dequeued epoch's
timestamp has UTC hour, minute and second equal to the
`(endhr, endmin, 0)` target, and with no end time supplied the target
defaults to minute 0, second 0 of the hour after the start hour. -/
theorem run_end_condition (endhr endmin now : ℕ) (epochs : List Epoch)
    (g : ℕ) :
    ((runLoop endhr endmin 0 epochs g).stopped = true ↔
      ∃ e ∈ epochs, tm_hour e.time = endhr ∧ tm_min e.time = endmin ∧
        tm_sec e.time = 0) ∧
    endTarget none now = (tm_hour now + 1, 0, 0) ∧
    ∀ hr mn, endTarget (some (hr, mn)) now = (hr, mn, 0) := by
  refine ⟨?_, rfl, fun hr mn => rfl⟩
  rw [runLoop_stopped, List.any_eq_true]
  constructor
  · rintro ⟨e, he, hc⟩
    exact ⟨e, he, (endCond_iff _ _ _ _).mp hc⟩
  · rintro ⟨e, he, hc⟩
    exact ⟨e, he, (endCond_iff _ _ _ _).mpr hc⟩

/-- C9: when the first epoch matching the stop target sits at position
`k`, the loop forwards and persists exactly the `k` epochs before it —
the matching epoch is neither put on the monitor queue nor written as a
raw group, and the group counter stops at `g + k`. -/
theorem stop_epoch_discarded (endhr endmin : ℕ) (epochs : List Epoch)
    (k g : ℕ) (hk : k < epochs.length)
    (hmatch : endCond endhr endmin 0 (epochs.getD k default).time = true)
    (hprior : ∀ j, j < k →
      endCond endhr endmin 0 (epochs.getD j default).time = false) :
    runLoop endhr endmin 0 epochs g =
      ⟨epochs.take k, List.enumFrom g (epochs.take k), g + k, true⟩ := by
  induction epochs generalizing k g with
  | nil => simp at hk
  | cons e rest ih =>
      cases k with
      | zero =>
          have hm : endCond endhr endmin 0 e.time = true := by
            simpa using hmatch
          simp [runLoop, hm]
      | succ j =>
          have h0 : endCond endhr endmin 0 e.time = false := by
            simpa using hprior 0 (Nat.succ_pos j)
          have hkr : j < rest.length := by
            rw [List.length_cons] at hk
            omega
          have hmr : endCond endhr endmin 0 (rest.getD j default).time = true := by
            simpa [List.getD_cons_succ] using hmatch
          have hpr : ∀ i, i < j →
              endCond endhr endmin 0 (rest.getD i default).time = false := by
            intro i hi
            simpa [List.getD_cons_succ] using hprior (i + 1) (by omega)
          have hrec := ih j (g + 1) hkr hmr hpr
          have hstep : runLoop endhr endmin 0 (e :: rest) g =
              ⟨e :: (runLoop endhr endmin 0 rest (g + 1)).monitored,
               (g, e) :: (runLoop endhr endmin 0 rest (g + 1)).rawGroups,
               (runLoop endhr endmin 0 rest (g + 1)).grpnum,
               (runLoop endhr endmin 0 rest (g + 1)).stopped⟩ := by
            simp only [runLoop, h0, Bool.false_eq_true, if_false]
          rw [hstep, hrec]
          have hg : g + 1 + j = g + (j + 1) := by omega
          rw [hg, List.take_succ_cons]
          rfl

/-- A bare epoch with the given capture timestamp, for concrete runs. -/
def epochAtSec (t : ℕ) : Epoch := ⟨t, [], [], [], [], [], [], [], []⟩

/-- Witness for C9: with target 01:00:00 the epoch at `t = 3600`
(position 1) triggers the stop and is itself discarded; only the epoch
at `t = 0` is forwarded and persisted as group 0. -/
theorem stop_epoch_discarded_witness :
    (1 < ([epochAtSec 0, epochAtSec 3600] : List Epoch).length ∧
     endCond 1 0 0 (([epochAtSec 0, epochAtSec 3600] : List Epoch).getD 1
       default).time = true ∧
     (∀ j, j < 1 → endCond 1 0 0
       (([epochAtSec 0, epochAtSec 3600] : List Epoch).getD j
         default).time = false)) ∧
    runLoop 1 0 0 [epochAtSec 0, epochAtSec 3600] 0 =
      ⟨([epochAtSec 0, epochAtSec 3600] : List Epoch).take 1,
       List.enumFrom 0 (([epochAtSec 0, epochAtSec 3600] : List Epoch).take 1),
       0 + 1, true⟩ :=
  ⟨⟨by decide, by decide, by decide⟩,
   stop_epoch_discarded 1 0 [epochAtSec 0, epochAtSec 3600] 1 0
     (by decide) (by decide) (by decide)⟩

theorem tm_hour_lt (t : ℕ) : tm_hour t < 24 :=
  Nat.mod_lt _ (by omega)

theorem runLoop_never_stops (endhr endmin endsec : ℕ)
    (hnever : ∀ t, endCond endhr endmin endsec t = false)
    (epochs : List Epoch) (g : ℕ) :
    (runLoop endhr endmin endsec epochs g).stopped = false ∧
    (runLoop endhr endmin endsec epochs g).monitored = epochs := by
  induction epochs generalizing g with
  | nil => exact ⟨rfl, rfl⟩
  | cons e rest ih =>
      have h := hnever e.time
      have hrec := ih (g + 1)
      simp only [runLoop, h, Bool.false_eq_true, if_false]
      exact ⟨hrec.1, by rw [hrec.2]⟩

/-- C10: starting during UTC hour 23 with no explicit end time yields
default end hour 24; since every timestamp's UTC hour is below 24, no
epoch ever satisfies the stop target and the loop runs through every
epoch without stopping. -/
theorem default_end_hour_24_never_stops (start : ℕ)
    (hs : tm_hour start = 23) :
    (endTarget none start).1 = 24 ∧
    (∀ t, tm_hour t < 24) ∧
    ∀ epochs g,
      (runLoop (endTarget none start).1 (endTarget none start).2.1
        (endTarget none start).2.2 epochs g).stopped = false ∧
      (runLoop (endTarget none start).1 (endTarget none start).2.1
        (endTarget none start).2.2 epochs g).monitored = epochs := by
  have h24 : (endTarget none start).1 = 24 := by
    simp [endTarget, hs]
  refine ⟨h24, tm_hour_lt, ?_⟩
  intro epochs g
  refine runLoop_never_stops _ _ _ ?_ epochs g
  intro t
  rw [h24]
  have hlt := tm_hour_lt t
  simp only [endCond, Bool.and_eq_true, beq_iff_eq, Bool.and_eq_false_iff]
  left
  left
  simp only [beq_eq_false_iff_ne, ne_eq]
  omega

/-- Witness for C10 at the concrete start time 23:00:00 UTC
(`t = 82800`). -/
theorem default_end_hour_24_never_stops_witness :
    tm_hour 82800 = 23 ∧
    ((endTarget none 82800).1 = 24 ∧
     (∀ t, tm_hour t < 24) ∧
     ∀ epochs g,
       (runLoop (endTarget none 82800).1 (endTarget none 82800).2.1
         (endTarget none 82800).2.2 epochs g).stopped = false ∧
       (runLoop (endTarget none 82800).1 (endTarget none 82800).2.1
         (endTarget none 82800).2.2 epochs g).monitored = epochs) :=
  ⟨by decide, default_end_hour_24_never_stops 82800 (by decide)⟩

/-- The externally visible steps of the server's shutdown path. -/
inductive ShutdownAction where
  | stopReader : ShutdownAction
  | stopUnpacker : ℕ → ShutdownAction
  | stopAggregator : ℕ → ShutdownAction
  | clearAveragingFlag : ShutdownAction
  | terminateAverager : ShutdownAction
  | closeSocket : ShutdownAction
  | closeRawFile : ShutdownAction
deriving DecidableEq

/-- The step sequence of `KurtosisDataServer._terminate`: terminate the
reader, the 16 unpackers and the 4 aggregators in order, then stop the
averager (clear the shared flag, sleep, forcefully terminate it), then
close the socket.  Each step's failure raises only caught exception
types, which are logged before the method proceeds to the next step.
The raw-store HDF5 file is not touched. -/
def terminateActions : List ShutdownAction :=
  [ShutdownAction.stopReader]
    ++ (List.range num_workers).map ShutdownAction.stopUnpacker
    ++ (List.range num_aggregators).map ShutdownAction.stopAggregator
    ++ [ShutdownAction.clearAveragingFlag, ShutdownAction.terminateAverager,
        ShutdownAction.closeSocket]

/-- The tail of `KurtosisDataServer.run`: once the loop exits it clears
the averaging flag and then calls `_terminate`. -/
def runShutdownActions : List ShutdownAction :=
  ShutdownAction.clearAveragingFlag :: terminateActions

/-- C7 counterexample: the shutdown sequence does not close the
raw-store file at all, and its last action is closing the socket — the
averager is stopped before the socket is closed, not last as the claim
states. -/
theorem shutdown_order_claim_false :
    ShutdownAction.closeRawFile ∉ runShutdownActions ∧
    runShutdownActions.getLast? = some ShutdownAction.closeSocket ∧
    runShutdownActions.indexOf ShutdownAction.terminateAverager <
      runShutdownActions.indexOf ShutdownAction.closeSocket := by
  decide

/-- C7 amended: the actual order is reader, then all unpackers, then
all aggregators, then the averager (its shared flag is cleared — once
already by the run loop — before it is forcefully terminated), and the
socket is closed last; the raw-store file is never closed.  Failures of
individual steps raise only caught-and-logged exception types, so later
steps still run. -/
theorem shutdown_order_amended :
    runShutdownActions.head? = some ShutdownAction.clearAveragingFlag ∧
    runShutdownActions.indexOf ShutdownAction.stopReader = 1 ∧
    (∀ i, i < num_workers →
      runShutdownActions.indexOf ShutdownAction.stopReader <
        runShutdownActions.indexOf (ShutdownAction.stopUnpacker i)) ∧
    (∀ i, i < num_workers → ∀ j, j < num_aggregators →
      runShutdownActions.indexOf (ShutdownAction.stopUnpacker i) <
        runShutdownActions.indexOf (ShutdownAction.stopAggregator j)) ∧
    (∀ j, j < num_aggregators →
      runShutdownActions.indexOf (ShutdownAction.stopAggregator j) <
        runShutdownActions.indexOf ShutdownAction.terminateAverager) ∧
    runShutdownActions.indexOf ShutdownAction.clearAveragingFlag <
      runShutdownActions.indexOf ShutdownAction.terminateAverager ∧
    runShutdownActions.indexOf ShutdownAction.terminateAverager <
      runShutdownActions.indexOf ShutdownAction.closeSocket ∧
    ShutdownAction.closeRawFile ∉ runShutdownActions ∧
    runShutdownActions.getLast? = some ShutdownAction.closeSocket := by
  decide

/-- `packet[:8]` of `unpack_from(pkt_fmt, data)`: the 8 header chars of
a datagram. -/
def unpackHdrChars (data : List ℕ) : List ℕ :=
  (List.range 8).map (fun i => data.getD i 0)

/-- Startup channel sniffing in `KurtosisDataServer.__init__`: if no
datagram arrives inside the 2-second socket timeout the server calls
`sys.exit(1)`; otherwise it proceeds, taking the first four header
chars of the sniffed packet as the I signal code and the next four as
the Q signal code. -/
def startupSniff (recv : Option (List ℕ)) : Except ℕ (List ℕ × List ℕ) :=
  match recv with
  | none => Except.error 1
  | some data =>
      Except.ok ((unpackHdrChars data).take 4, (unpackHdrChars data).drop 4)

/-- C8: a timeout while sniffing the first packet aborts the pipeline
with non-zero exit status 1; a received datagram produces no abort and
startup uses its 8-byte header as the I and Q signal codes (bytes 0-3
and 4-7). -/
theorem startup_sniff_behaviour (d : List ℕ) :
    (startupSniff none = Except.error 1 ∧ (1 : ℕ) ≠ 0) ∧
    startupSniff (some d) =
      Except.ok ([d.getD 0 0, d.getD 1 0, d.getD 2 0, d.getD 3 0],
                 [d.getD 4 0, d.getD 5 0, d.getD 6 0, d.getD 7 0]) := by
  exact ⟨⟨rfl, by omega⟩, rfl⟩

end DataServer
